import Mathlib

/-
Verification of the territory-python-scanner document pipeline.

Shallow embedding of:
  - territory_python_scanner/writer.py   (UimTokenWriter / UimNodeWriter)
  - territory_python_scanner/scanner.py  (offset resolver, scan queue, tree walk)

Python `str` values are modelled as `List Char` (a Python string is a sequence
of Unicode code points); `str.encode('utf-8')` is modelled by an explicit
UTF-8 encoder producing `List Nat` byte lists.
-/

set_option maxHeartbeats 1000000

abbrev Str := List Char

/-- UTF-8 encoding of a single code point (the standard 1-4 byte encoding,
as produced by Python's `str.encode('utf-8')` for each character). -/
def utf8Char (c : Char) : List Nat :=
  let n := c.toNat
  if n < 128 then [n]
  else if n < 2048 then [192 + n / 64, 128 + n % 64]
  else if n < 65536 then [224 + n / 4096, 128 + (n / 64) % 64, 128 + n % 64]
  else [240 + n / 262144, 128 + (n / 4096) % 64, 128 + (n / 64) % 64, 128 + n % 64]

/-- UTF-8 encoding of a Python string (`text.encode('utf-8')`). -/
def utf8Str (s : Str) : List Nat :=
  (s.map utf8Char).flatten

theorem utf8Str_append (a b : Str) : utf8Str (a ++ b) = utf8Str a ++ utf8Str b := by
  simp [utf8Str]

/-- Token types accepted by `UimTokenWriter.append_token` (the `TokenType`
enum names used by the scanner: tok_type results plus the WS type used for
whitespace/comment runs and the ellipsis marker). -/
inductive TokType where
  | Keyword | Literal | Punctuation | Identifier | WS
deriving DecidableEq, Repr

/-- Cross-reference target: the href dictionaries of path and offset
built by `uni_href` and in `write_content`. -/
structure Href where
  path : String
  offset : Nat
deriving DecidableEq, Repr

/- ====================  writer.py : UimTokenWriter  ==================== -/

/-- One protobuf `Token` record as filled in by `append_token`: its type,
optional uni_href, the optional explicitly stored `real_line` field, and the
node-local byte `offset`.  (The token text itself is not stored per token;
it is accumulated into the node's `text` via `text_parts`.) -/
structure PbTok where
  typ : TokType
  href : Option Href
  realLine : Option Nat
  off : Nat
deriving DecidableEq, Repr

instance : Inhabited PbTok := ⟨⟨TokType.WS, none, none, 0⟩⟩

/-- Mutable state of a `UimTokenWriter`: `calculated_line`, the running byte
`offset`, the accumulated `text_parts` (encoded byte strings), and the node's
token list. -/
structure WState where
  calcLine : Nat
  off : Nat
  parts : List (List Nat)
  toks : List PbTok
deriving DecidableEq, Repr

/-- Arguments of one `append_token(token_type, text, href, real_line)` call. -/
structure AppCall where
  typ : TokType
  text : Str
  href : Option Href
  realLine : Option Nat
deriving DecidableEq, Repr

/-- `UimTokenWriter.append_token`: stores `real_line` on the token only when
given and different from `calculated_line`; records the current running byte
offset on the token; appends the UTF-8 encoded text to `text_parts` and
advances `offset` by its byte length and `calculated_line` by the newline
count of the text. -/
def appendTokenW (st : WState) (c : AppCall) : WState :=
  let stored : Option Nat :=
    match c.realLine with
    | some l => if st.calcLine ≠ l then some l else none
    | none => none
  let bytes := utf8Str c.text
  { calcLine := st.calcLine + c.text.count '\n'
    off := st.off + bytes.length
    parts := st.parts ++ [bytes]
    toks := st.toks ++ [⟨c.typ, c.href, stored, st.off⟩] }

def foldW (st : WState) (calls : List AppCall) : WState :=
  calls.foldl appendTokenW st

/-- Fresh `UimTokenWriter` as produced by `UimNodeWriter.begin_node`:
`calculated_line` starts at the node's start line (0 for a start-less root
node), offset 0, no parts, no tokens. -/
def initW (startLine : Nat) : WState :=
  ⟨startLine, 0, [], []⟩

/-- Writer state after appending a list of tokens to a fresh node whose start
line is `startLine`. -/
def runW (startLine : Nat) (calls : List AppCall) : WState :=
  foldW (initW startLine) calls

/-- Node `text` assembled by `UimNodeWriter.write_node`: `b''.join(text_parts)`. -/
def nodeTextW (st : WState) : List Nat :=
  st.parts.flatten

/-- Token built by `append_token` when invoked at calculated line `cl` and
running offset `off` (specification-side restatement used in the lemmas). -/
def mkTokSpec (cl off : Nat) (c : AppCall) : PbTok :=
  ⟨c.typ, c.href,
    (match c.realLine with
     | some l => if cl ≠ l then some l else none
     | none => none),
    off⟩

def sumNl (A : List AppCall) : Nat :=
  (A.map (fun a => a.text.count '\n')).sum

def sumBytes (A : List AppCall) : Nat :=
  (A.map (fun a => (utf8Str a.text).length)).sum

theorem foldW_calcLine (calls : List AppCall) :
    ∀ st : WState, (foldW st calls).calcLine = st.calcLine + sumNl calls := by
  induction calls with
  | nil => intro st; simp [foldW, sumNl]
  | cons a rest ih =>
    intro st
    simp only [foldW, List.foldl_cons] at *
    rw [ih (appendTokenW st a)]
    simp [appendTokenW, sumNl, Nat.add_assoc]

theorem foldW_off (calls : List AppCall) :
    ∀ st : WState, (foldW st calls).off = st.off + sumBytes calls := by
  induction calls with
  | nil => intro st; simp [foldW, sumBytes]
  | cons a rest ih =>
    intro st
    simp only [foldW, List.foldl_cons] at *
    rw [ih (appendTokenW st a)]
    simp [appendTokenW, sumBytes, Nat.add_assoc]

theorem foldW_parts (calls : List AppCall) :
    ∀ st : WState, (foldW st calls).parts = st.parts ++ calls.map (fun c => utf8Str c.text) := by
  induction calls with
  | nil => intro st; simp [foldW]
  | cons a rest ih =>
    intro st
    simp only [foldW, List.foldl_cons] at *
    rw [ih (appendTokenW st a)]
    simp [appendTokenW]

theorem foldW_toks_ext (calls : List AppCall) :
    ∀ st : WState, ∃ r, (foldW st calls).toks = st.toks ++ r := by
  induction calls with
  | nil => intro st; exact ⟨[], by simp [foldW]⟩
  | cons a rest ih =>
    intro st
    obtain ⟨r, hr⟩ := ih (appendTokenW st a)
    refine ⟨mkTokSpec st.calcLine st.off a :: r, ?_⟩
    simp only [foldW, List.foldl_cons] at *
    rw [hr]
    simp [appendTokenW, mkTokSpec]

theorem foldW_getTok (A : List AppCall) :
    ∀ (st : WState) (c : AppCall) (B : List AppCall),
      (foldW st (A ++ c :: B)).toks.getD (st.toks.length + A.length) default
        = mkTokSpec (st.calcLine + sumNl A) (st.off + sumBytes A) c := by
  induction A with
  | nil =>
    intro st c B
    simp only [List.nil_append, foldW, List.foldl_cons]
    obtain ⟨r, hr⟩ := foldW_toks_ext B (appendTokenW st c)
    show (foldW (appendTokenW st c) B).toks.getD (st.toks.length + 0) default = _
    rw [hr]
    simp only [appendTokenW, List.append_assoc, List.singleton_append, Nat.add_zero]
    rw [List.getD_append_right _ _ _ _ (le_refl _)]
    simp [mkTokSpec, sumNl, sumBytes]
  | cons a A' ih =>
    intro st c B
    simp only [List.cons_append, foldW, List.foldl_cons]
    have h := ih (appendTokenW st a) c B
    simp only [foldW] at h
    simp only [appendTokenW, List.length_append, List.length_cons, List.length_nil] at h ⊢
    convert h using 2
    · omega
    · simp [sumNl, Nat.add_assoc]
    · simp [sumBytes, Nat.add_assoc]

/-- C3: a token's `real_line` field is stored in the serialized record exactly
when an explicit line was passed to `append_token` and it differs from the
running `calculated_line`, which starts at the node's start line and grows by
the newline count of every previously appended token's text. -/
theorem c3_theorem :
    ∀ (startLine : Nat) (A : List AppCall) (c : AppCall) (B : List AppCall),
      ((runW startLine (A ++ c :: B)).toks.getD A.length default).realLine
        = match c.realLine with
          | some l => if startLine + sumNl A ≠ l then some l else none
          | none => none := by
  intro startLine A c B
  have h := foldW_getTok A (initW startLine) c B
  simp only [initW, runW] at h ⊢
  simpa [mkTokSpec] using congrArg PbTok.realLine h

/-- C8: a node's stored `text` is the byte concatenation of every appended
token's UTF-8 encoded text in append order, and each token's `local_offset`
is the running sum of the encoded byte lengths of the token texts appended
before it. -/
theorem c8_theorem :
    (∀ (startLine : Nat) (calls : List AppCall),
        nodeTextW (runW startLine calls) = (calls.map (fun c => utf8Str c.text)).flatten)
    ∧ (∀ (startLine : Nat) (A : List AppCall) (c : AppCall) (B : List AppCall),
        ((runW startLine (A ++ c :: B)).toks.getD A.length default).off = sumBytes A) := by
  constructor
  · intro startLine calls
    have h := foldW_parts calls (initW startLine)
    simp only [initW, runW, nodeTextW] at h ⊢
    rw [h]
    simp
  · intro startLine A c B
    have h := foldW_getTok A (initW startLine) c B
    simp only [initW, runW] at h ⊢
    simpa [mkTokSpec] using congrArg PbTok.off h

/- ====================  scanner.py : offset resolver  ==================== -/

/-- Python line-boundary test: the characters on which `str.splitlines`
breaks a line. -/
def isLB (c : Char) : Bool :=
  c = '\n' || c = '\r' || c = '\x0b' || c = '\x0c' ||
  c = '\x1c' || c = '\x1d' || c = '\x1e' || c = '\x85' ||
  c = '\u2028' || c = '\u2029'

/-- Worker for `splitKeepPy` carrying the current (unterminated) line. -/
def splitKeepAux : Str → Str → List Str
  | [], [] => []
  | [], acc => [acc]
  | '\r' :: '\n' :: rest, acc => (acc ++ ['\r', '\n']) :: splitKeepAux rest []
  | c :: rest, acc =>
    if isLB c then (acc ++ [c]) :: splitKeepAux rest []
    else splitKeepAux rest (acc ++ [c])

/-- Python `code.splitlines(keepends=True)`. -/
def splitKeepPy (s : Str) : List Str :=
  splitKeepAux s []

/-- Cumulative offsets tail: for each line adds its length to the running
offset `o` and records the result (`scan_line_offsets`'s loop body). -/
def accOffsets (len : Str → Nat) (o : Nat) : List Str → List Nat
  | [] => []
  | l :: ls => (o + len l) :: accOffsets len (o + len l) ls

/-- `scan_line_offsets(code)`: `offs = [0]`, then for each line of
`code.splitlines(keepends=True)` appends the running total of `len(l)`.
Note `len` on a Python `str` counts characters (code points), not bytes. -/
def scanLineOffsets (code : Str) : List Nat :=
  0 :: accOffsets List.length 0 (splitKeepPy code)

/-- Byte-measuring variant of the offset table, following the specification's
words: "a table `offsets[i]` = cumulative byte length through the end of line
`i`", with lengths measured in encoded UTF-8 bytes.  Stated for comparison
with `scanLineOffsets`, which the source computes from character counts. -/
def scanLineOffsetsBytes (code : Str) : List Nat :=
  0 :: accOffsets (fun l => (utf8Str l).length) 0 (splitKeepPy code)

/-- Python list indexing `xs[i]` with negative-index wraparound; `none`
models an `IndexError`. -/
def pyIndex (xs : List Nat) (i : Int) : Option Nat :=
  if 0 ≤ i then xs.get? i.toNat
  else if (-i).toNat ≤ xs.length then xs.get? (xs.length - (-i).toNat)
  else none

/-- `get_offset(path, line, col)` for a file whose decoded content is
`content` (`none` when the file cannot be opened/read): builds the
`scan_line_offsets` table and returns `offsets[line-1] + col`; any failure
(unreadable file or out-of-range index) raises the `KeyError`, modelled as
`none`. -/
def getOffset (content : Option Str) (line : Nat) (col : Nat) : Option Nat :=
  match content with
  | none => none
  | some code => (pyIndex (scanLineOffsets code) ((line : Int) - 1)).map (· + col)

/-- Number of lines of a file, as the spec counts them: the length of the
`splitlines` decomposition. -/
def lineCount (code : Str) : Nat :=
  (splitKeepPy code).length

theorem accOffsets_length (len : Str → Nat) :
    ∀ (ls : List Str) (o : Nat), (accOffsets len o ls).length = ls.length := by
  intro ls
  induction ls with
  | nil => intro o; simp [accOffsets]
  | cons l ls ih => intro o; simp [accOffsets, ih]

theorem scanLineOffsets_length (code : Str) :
    (scanLineOffsets code).length = lineCount code + 1 := by
  simp [scanLineOffsets, lineCount, accOffsets_length]

/-- C4: the offset table built by `scan_line_offsets` measures lines with
Python's `len` on decoded strings, i.e. in characters, not in encoded UTF-8
bytes.  For the file content `"π\n"` the resolver returns offset 2 for
line 2, while the position of line 2 in the UTF-8 encoded file is byte 3
(the byte-measuring table of the specification gives 3), so for files with
multi-byte characters `get_offset` disagrees with the byte-oriented token
offsets produced by the writer. -/
theorem c4_theorem :
    getOffset (some "π\n".data) 2 0 = some 2
    ∧ (scanLineOffsetsBytes "π\n".data).getD 1 0 = 3
    ∧ utf8Str "π\n".data = [207, 128, 10]
    ∧ (2 : Nat) ≠ 3 := by
  decide

/-- C5 counterexample: the claim says resolution fails exactly when the file
is unreadable or the requested line exceeds the file's line count; but for the
one-line file `"a\n"` and line 2 (which exceeds the line count 1) `get_offset`
succeeds and returns the table's final entry. -/
theorem c5_counterexample :
    ¬ (∀ (code : Str) (line col : Nat),
        getOffset (some code) line col = none ↔ lineCount code < line) := by
  intro h
  have h2 := (h "a\n".data 2 0).mpr (by decide)
  exact absurd h2 (by decide)

/-- C5 (amended): for a positive requested line, resolution of a readable
file fails exactly when the line exceeds the line count plus one (the offsets
table has `lineCount + 1` entries, so line `lineCount + 1` still resolves, to
the total file length); within range it returns `offsets[line-1] + col`;
an unreadable file always fails. -/
theorem c5_theorem :
    ∀ (content : Option Str) (line col : Nat), 1 ≤ line →
      (getOffset none line col = none)
      ∧ (∀ code, content = some code →
          ((getOffset content line col = none ↔ lineCount code + 1 < line)
            ∧ (line ≤ lineCount code + 1 →
                getOffset content line col
                  = some ((scanLineOffsets code).getD (line - 1) 0 + col)))) := by
  intro content line col h1
  refine ⟨rfl, ?_⟩
  rintro code rfl
  have hlen := scanLineOffsets_length code
  have h0 : (0 : Int) ≤ (line : Int) - 1 := by omega
  have htn : ((line : Int) - 1).toNat = line - 1 := by omega
  simp only [getOffset, pyIndex, if_pos h0, htn]
  constructor
  · rw [Option.map_eq_none', List.get?_eq_none]
    omega
  · intro hle
    have hlt : line - 1 < (scanLineOffsets code).length := by omega
    rw [List.get?_eq_get hlt]
    simp [List.getD_eq_getElem _ _ hlt, List.get_eq_getElem]
    rw [List.getElem?_eq_getElem hlt]
    simp

/-- Witness for `c5_theorem` at a concrete readable two-entry table. -/
theorem c5_witness :
    getOffset (some "a\n".data) 1 4 = some 4 := by
  have h := (c5_theorem (some "a\n".data) 1 4 (by decide)).2 "a\n".data rfl
  rw [h.2 (by decide)]
  decide

/- ====================  scanner.py : ScanQueue  ==================== -/

/-- State of a `ScanQueue`: the `pending` and `processed` path sets (Python
sets of canonical paths, modelled as duplicate-free lists). -/
structure QSt where
  pending : List String
  processed : List String
deriving DecidableEq, Repr

/-- Python `set.add`: inserts an element if not already present. -/
def insertS (p : String) (l : List String) : List String :=
  if p ∈ l then l else l ++ [p]

/-- `ScanQueue.add_path`: canonicalizes the path (`expand_path`) and inserts
it into `pending` only when it is not in `processed`. -/
def addPathQ (canon : String → String) (st : QSt) (p : String) : QSt :=
  let q := canon p
  if q ∈ st.processed then st else { st with pending := insertS q st.pending }

/-- `ScanQueue.add_imported`: adds the path only in system (dependency) mode. -/
def addImportedQ (system : Bool) (canon : String → String) (st : QSt) (p : String) : QSt :=
  if system then addPathQ canon st p else st

/-- `ScanQueue.add_dir`: adds every `*.py` file under the directory except
those with a `site-packages` path component; the glob result is the `ps`
oracle. -/
def addDirQ (canon : String → String) (st : QSt) (ps : List String) : QSt :=
  (ps.filter (fun p => ¬ (p.splitOn "/").contains "site-packages")).foldl (addPathQ canon) st

/-- `ScanQueue.next`: removes the popped element from `pending` and adds it
to `processed` unconditionally (`mark_processed`). -/
def nextQ (st : QSt) (p : String) : QSt :=
  { pending := st.pending.erase p, processed := insertS p st.processed }

/-- Reachable queue states paired with the sequence of paths popped so far.
`next` may pop an arbitrary member of `pending` (Python `set.pop` order is
unspecified), so the popped element is a parameter constrained to membership;
popping from an empty set raises and is therefore not a step. -/
inductive QReach (system : Bool) (canon : String → String) : QSt → List String → Prop where
  | init : QReach system canon ⟨[], []⟩ []
  | addPath {st pops p} : QReach system canon st pops →
      QReach system canon (addPathQ canon st p) pops
  | addImported {st pops p} : QReach system canon st pops →
      QReach system canon (addImportedQ system canon st p) pops
  | addDir {st pops ps} : QReach system canon st pops →
      QReach system canon (addDirQ canon st ps) pops
  | next {st pops p} : QReach system canon st pops → p ∈ st.pending →
      QReach system canon (nextQ st p) (pops ++ [p])

/-- Combined queue invariant: `pending` is duplicate-free, disjoint from
`processed`, no path was popped twice, and every popped path is in
`processed`. -/
def qInv (st : QSt) (pops : List String) : Prop :=
  st.pending.Nodup
  ∧ (∀ q ∈ st.pending, q ∉ st.processed)
  ∧ pops.Nodup
  ∧ (∀ q ∈ pops, q ∈ st.processed)

theorem insertS_nodup {p : String} {l : List String} (h : l.Nodup) : (insertS p l).Nodup := by
  unfold insertS
  split
  · exact h
  · next hne =>
    refine List.Nodup.append h (List.nodup_singleton _) ?_
    intro x hx hx2
    simp only [List.mem_singleton] at hx2
    exact hne (hx2 ▸ hx)

theorem mem_insertS {q p : String} {l : List String} :
    q ∈ insertS p l ↔ q = p ∨ q ∈ l := by
  unfold insertS
  split
  · next hm =>
    exact ⟨fun h => Or.inr h, fun h => h.elim (fun he => he ▸ hm) id⟩
  · simp [List.mem_append, or_comm]

theorem addPathQ_inv {canon : String → String} {st : QSt} {pops : List String} {p : String}
    (h : qInv st pops) : qInv (addPathQ canon st p) pops := by
  obtain ⟨h1, h2, h3, h4⟩ := h
  by_cases hq : canon p ∈ st.processed
  · simp only [addPathQ, if_pos hq]
    exact ⟨h1, h2, h3, h4⟩
  · simp only [addPathQ, if_neg hq]
    refine ⟨insertS_nodup h1, ?_, h3, h4⟩
    intro q hqm
    rcases mem_insertS.mp hqm with rfl | hq'
    · exact hq
    · exact h2 q hq'

theorem addDirQ_inv {canon : String → String} {st : QSt} {pops : List String} {ps : List String}
    (h : qInv st pops) : qInv (addDirQ canon st ps) pops := by
  unfold addDirQ
  generalize (ps.filter _) = qs
  induction qs generalizing st with
  | nil => exact h
  | cons a rest ih => exact ih (addPathQ_inv h)

theorem qreach_inv {system : Bool} {canon : String → String} {st : QSt} {pops : List String}
    (h : QReach system canon st pops) : qInv st pops := by
  induction h with
  | init => exact ⟨List.nodup_nil, by simp, List.nodup_nil, by simp⟩
  | addPath _ ih => exact addPathQ_inv ih
  | addImported _ ih =>
    unfold addImportedQ
    split
    · exact addPathQ_inv ih
    · exact ih
  | addDir _ ih => exact addDirQ_inv ih
  | @next st' pops' p _ hmem ih =>
    obtain ⟨h1, h2, h3, h4⟩ := ih
    have hpp : p ∉ pops' := fun hp => h2 p hmem (h4 p hp)
    refine ⟨h1.erase p, ?_, ?_, ?_⟩
    · intro q hq
      have hqp : q ≠ p ∧ q ∈ st'.pending := (h1.mem_erase_iff).mp hq
      intro hqproc
      rcases mem_insertS.mp hqproc with rfl | hq'
      · exact hqp.1 rfl
      · exact h2 q hqp.2 hq'
    · refine List.Nodup.append h3 (List.nodup_singleton _) ?_
      intro x hx hx2
      simp only [List.mem_singleton] at hx2
      exact hpp (hx2 ▸ hx)
    · intro q hq
      rcases List.mem_append.mp hq with hq' | hq'
      · exact mem_insertS.mpr (Or.inr (h4 q hq'))
      · simp only [List.mem_singleton] at hq'
        exact mem_insertS.mpr (Or.inl hq')

/-- C6: in every reachable queue state `pending` and `processed` are
disjoint, and the sequence of paths returned by `next` over a whole run has
no duplicates — a canonical path is popped at most once per run, however
often it is added and even if re-added after being processed. -/
theorem c6_theorem :
    ∀ (system : Bool) (canon : String → String) (st : QSt) (pops : List String),
      QReach system canon st pops →
        (∀ q ∈ st.pending, q ∉ st.processed) ∧ pops.Nodup := by
  intro system canon st pops h
  obtain ⟨_, h2, h3, _⟩ := qreach_inv h
  exact ⟨h2, h3⟩

/-- Witness for `c6_theorem`: a run that adds path "a", pops it, and re-adds
it after it was processed. -/
theorem c6_witness :
    (∀ q ∈ (QSt.mk [] ["a"]).pending, q ∉ (QSt.mk [] ["a"]).processed)
    ∧ ([("a" : String)]).Nodup := by
  have h0 : QReach true id ⟨[], []⟩ [] := QReach.init
  have h1 : QReach true id ⟨["a"], []⟩ [] := by
    have h := @QReach.addPath true id ⟨[], []⟩ [] "a" h0
    simpa [addPathQ, insertS] using h
  have h2 : QReach true id ⟨[], ["a"]⟩ ["a"] := by
    have h := @QReach.next true id ⟨["a"], []⟩ [] "a" h1 (by simp)
    simpa [nextQ, insertS] using h
  have h3 : QReach true id ⟨[], ["a"]⟩ ["a"] := by
    have h := @QReach.addPath true id ⟨[], ["a"]⟩ ["a"] "a" h2
    simpa [addPathQ, insertS] using h
  exact c6_theorem true id ⟨[], ["a"]⟩ ["a"] h3

/- ====================  scanner.py : the tree walk  ==================== -/

/-- Leaf classes of the parso tree that `tok_type` / `write_content`
discriminate on: `Keyword`, `Literal`, `Operator`, `Name`, `EndMarker`, and
any other leaf class. -/
inductive LeafKind where
  | keyword | literal | operator | name | endMarker | other
deriving DecidableEq, Repr

/-- One parso `Leaf`: its class, `value`, `prefix` (attached leading
whitespace/comments), `start_pos` line/column, and the line reported by
`get_start_pos_of_prefix()`. -/
structure LeafI where
  kind : LeafKind
  val : Str
  pfx : Str
  line : Nat
  col : Nat
  pfxLine : Nat
deriving DecidableEq, Repr

/-- Composite node classes that the walk discriminates on:
`ClassOrFunc` subclasses, `PythonNode` with `type == 'decorated'`, and every
other composite node. -/
inductive NKind where
  | classOrFunc | decorated | plain
deriving DecidableEq, Repr

mutual
/-- A parso tree: a leaf, or a composite node with its class, the parser's
`name` attribute when the node exposes one (`getattr(node, 'name', None)`),
and its children. -/
inductive PTree where
  | leaf : LeafI → PTree
  | node : NKind → Option LeafI → PForest → PTree
/-- Children list of a composite node (a specialized list, so that the
walk functions are mutually structurally recursive). -/
inductive PForest where
  | nil : PForest
  | cons : PTree → PForest → PForest
end

def PForest.ofList : List PTree → PForest
  | [] => .nil
  | c :: cs => .cons c (PForest.ofList cs)

def childrenOf : PTree → PForest
  | .leaf _ => .nil
  | .node _ _ cs => cs

def nameAttr : PTree → Option LeafI
  | .leaf _ => none
  | .node _ nm _ => nm

mutual
/-- `tree.start_pos` of a parso node: a leaf's own position, a composite's
first child's position. -/
def startPosT : PTree → Nat × Nat
  | .leaf l => (l.line, l.col)
  | .node _ _ cs => startPosF cs
def startPosF : PForest → Nat × Nat
  | .nil => (0, 0)
  | .cons c _ => startPosT c
end

mutual
/-- The `point_to` loop of `write_tree`: while the node is a `decorated`
`PythonNode`, descend to its last child. -/
def pointToF : PTree → PTree
  | .node .decorated nm cs => pointLast (PTree.node .decorated nm cs) cs
  | t => t
def pointLast (fb : PTree) : PForest → PTree
  | .nil => fb
  | .cons c .nil => pointToF c
  | .cons _ cs => pointLast fb cs
end

/-- Fields of a resolved jedi `Name` inspected by `write_content`:
`module_path`, `line`, `column` (each possibly absent). -/
structure RName where
  modPath : Option String
  line : Option Nat
  col : Option Nat

/-- External collaborators and per-file constants of one file walk: the file
path, the jedi `Script.goto` resolver (`none` models an empty result list or
a swallowed resolver exception; `some` the first returned `Name`), path
canonicalization (`expand_path`), and the offset resolver `get_offset`
treated as a total oracle. -/
structure ScanEnv where
  path : String
  goto : Nat → Nat → Option RName
  canon : String → String
  offsetOf : String → Nat → Nat → Nat

/-- Walk context threaded through the recursion (the relevant fields of the
frozen dataclass `G`): current nesting depth, the `omit_initial_prefix`
flag, the forced `href`, and the identity of the node currently receiving
tokens (`uim_node`). -/
structure WalkCtx where
  depth : Nat
  omitLead : Bool
  href : Option Href
  curId : Nat
deriving DecidableEq, Repr

/-- Arguments of one `append_token` call made by the walk. -/
structure TokCall where
  typ : TokType
  text : Str
  href : Option Href
  realLine : Option Nat
deriving DecidableEq, Repr

/-- Data passed to `begin_node` for a Definition node: path, start location
(line, column, resolved offset) and `uim_nest_level`. -/
structure NodeMeta where
  path : String
  startLine : Nat
  startCol : Nat
  startOff : Nat
  nestLevel : Nat
deriving DecidableEq, Repr

/-- One flushed node record (`write_node` call): a fresh identity assigned
at `begin_node` time, the identity of the node that receives its elided
placeholder (its parent), its metadata and its appended tokens. -/
structure FRec where
  id : Nat
  parent : Option Nat
  meta : NodeMeta
  toks : List TokCall
deriving DecidableEq, Repr

/-- One `UimSearchIndexWriter.append('IISymbol', key, href, path, None)`
call. -/
structure SEntry where
  key : Str
  hrefPath : String
  hrefOff : Nat
  path : String
deriving DecidableEq, Repr

/-- Output of a walk call: tokens appended to the current node, node records
flushed (in `write_node` call order), `Script.goto` query positions,
`add_imported` arguments, search-index entries, and the next fresh node
identity. -/
structure WOut where
  toks : List TokCall
  flushed : List FRec
  queries : List (Nat × Nat)
  adds : List String
  searches : List SEntry
  next : Nat
deriving DecidableEq, Repr

def WOut.empty (n : Nat) : WOut := ⟨[], [], [], [], [], n⟩

/-- Sequential composition of two walk outputs (the second computed from the
first's next fresh identity). -/
def WOut.seq (a b : WOut) : WOut :=
  ⟨a.toks ++ b.toks, a.flushed ++ b.flushed, a.queries ++ b.queries,
    a.adds ++ b.adds, a.searches ++ b.searches, b.next⟩

/-- The fixed list of single-character values never passed to the resolver:
open paren, close paren, comma, equals, dot, colon, closing brace, newline. -/
def exclVals : List Str :=
  ["(", ")", ",", "=", ".", ":", "\x7d", "\n"].map String.data

/-- `tok_type`: `Keyword`/`Literal`/`Operator` leaves map to their token
types, every other leaf class is an `Identifier`. -/
def tokTypeOf : LeafKind → TokType
  | .keyword => .Keyword
  | .literal => .Literal
  | .operator => .Punctuation
  | _ => .Identifier

/-- Leaf handling of `write_content`: an `EndMarker` produces nothing (early
return, its prefix included); otherwise a non-empty prefix is emitted as a
`WS` token via `write_ws_and_comments` unless `omit_initial_prefix` is set,
and the leaf itself is emitted with `tok_type`, its value, the current line,
and an href that is the forced one if present, otherwise the result of a
`Script.goto` query unless the value is in the fixed exclusion list. -/
def leafOut (env : ScanEnv) (g : WalkCtx) (n : Nat) (l : LeafI) : WOut :=
  if l.kind = LeafKind.endMarker then WOut.empty n
  else
    let pfxToks : List TokCall :=
      if l.pfx ≠ [] ∧ g.omitLead = false then [⟨TokType.WS, l.pfx, g.href, some l.pfxLine⟩] else []
    match g.href with
    | some h =>
      ⟨pfxToks ++ [⟨tokTypeOf l.kind, l.val, some h, some l.line⟩], [], [], [], [], n⟩
    | none =>
      if l.val ∈ exclVals then
        ⟨pfxToks ++ [⟨tokTypeOf l.kind, l.val, none, some l.line⟩], [], [], [], [], n⟩
      else
        match env.goto l.line l.col with
        | none =>
          ⟨pfxToks ++ [⟨tokTypeOf l.kind, l.val, none, some l.line⟩], [], [(l.line, l.col)], [], [], n⟩
        | some rn =>
          match rn.line, rn.col, rn.modPath with
          | some ln, some co, some mp =>
            let p := env.canon mp
            ⟨pfxToks ++ [⟨tokTypeOf l.kind, l.val, some ⟨p, env.offsetOf p ln co⟩, some l.line⟩],
              [], [(l.line, l.col)], [p], [], n⟩
          | _, _, _ =>
            ⟨pfxToks ++ [⟨tokTypeOf l.kind, l.val, none, some l.line⟩], [], [(l.line, l.col)], [], [], n⟩

/-- Anchor of a definable unit: `uni_href(path, point_to)` together with the
leaf `point_to` ends at (for the `isinstance(point_to, TName)` search-entry
test), after `point_to = point_to.name` when the node has a `name`
attribute. -/
def defAnchor (env : ScanEnv) (t : PTree) : Href × Option LeafI :=
  let pt := pointToF t
  match nameAttr pt with
  | some nm => (⟨env.path, env.offsetOf env.path nm.line nm.col⟩, some nm)
  | none =>
    match pt with
    | .leaf l => (⟨env.path, env.offsetOf env.path l.line l.col⟩, some l)
    | _ =>
      let sp := startPosT pt
      (⟨env.path, env.offsetOf env.path sp.1 sp.2⟩, none)

/-- Search entries appended for a definable unit at start position `sp`:
one `IISymbol` entry keyed by the name leaf's value when `point_to` is a
`Name` leaf. -/
def searchOf (env : ScanEnv) (sp : Nat × Nat) (anc : Href × Option LeafI) : List SEntry :=
  match anc.2 with
  | some x =>
    if x.kind = LeafKind.name then [⟨x.val, env.path, env.offsetOf env.path sp.1 sp.2, env.path⟩]
    else []
  | none => []

/-- Colon-operator test of `write_elided_def`:
`isinstance(c, Operator) and c.value == ':'`. -/
def isColonOp : PTree → Bool
  | .leaf l => decide (l.kind = LeafKind.operator) && decide (l.val = ":".data)
  | _ => false

mutual
/-- `write_tree`: a `ClassOrFunc` or decorated node opens a fresh Definition
node at the unit's start position with nest level `depth+1`, walks the unit
into it (content loop for a plain definition, the `write_decorated` loop for
a decorated one, in both cases with `omit_initial_prefix` set), flushes it,
then re-walks the unit into the parent as the elided rendering with the
forced href of `uni_href(path, point_to)`, and finally appends a search
entry when `point_to` is a name leaf.  Every other tree is handed to
`write_content`.  (For a composite node `write_content` is exactly its
children loop — composites are not `EndMarker`s, have no `prefix`
attribute and are not leaves — so the definable arms inline that loop.) -/
def writeTreeX (env : ScanEnv) (g : WalkCtx) (n : Nat) : PTree → WOut
  | .leaf l => leafOut env g n l
  | .node .plain _ cs => treeFoldX env g n cs
  | .node .classOrFunc nm cs =>
    let sp := startPosF cs
    let meta : NodeMeta := ⟨env.path, sp.1, sp.2, env.offsetOf env.path sp.1 sp.2, g.depth + 1⟩
    let childOut := treeFoldX env ⟨g.depth + 1, true, g.href, n⟩ (n + 1) cs
    let anc := defAnchor env (PTree.node .classOrFunc nm cs)
    let elidedOut := writeElidedDefX env ⟨g.depth, g.omitLead, some anc.1, g.curId⟩ childOut.next cs
    ⟨elidedOut.toks,
      childOut.flushed ++ ⟨n, some g.curId, meta, childOut.toks⟩ :: elidedOut.flushed,
      childOut.queries ++ elidedOut.queries,
      childOut.adds ++ elidedOut.adds,
      childOut.searches ++ elidedOut.searches ++ searchOf env sp anc,
      elidedOut.next⟩
  | .node .decorated nm cs =>
    let sp := startPosF cs
    let meta : NodeMeta := ⟨env.path, sp.1, sp.2, env.offsetOf env.path sp.1 sp.2, g.depth + 1⟩
    let childOut := decFoldX env ⟨g.depth + 1, true, g.href, n⟩ (n + 1) cs
    let anc := defAnchor env (PTree.node .decorated nm cs)
    let elidedOut := writeElidedDecX env ⟨g.depth, g.omitLead, some anc.1, g.curId⟩ childOut.next cs
    ⟨elidedOut.toks,
      childOut.flushed ++ ⟨n, some g.curId, meta, childOut.toks⟩ :: elidedOut.flushed,
      childOut.queries ++ elidedOut.queries,
      childOut.adds ++ elidedOut.adds,
      childOut.searches ++ elidedOut.searches ++ searchOf env sp anc,
      elidedOut.next⟩

/-- Children loop of `write_content`'s composite branch: `write_tree` on each
child, clearing `omit_initial_prefix` after the first. -/
def treeFoldX (env : ScanEnv) (g : WalkCtx) (n : Nat) : PForest → WOut
  | .nil => WOut.empty n
  | .cons c cs =>
    let o := writeTreeX env g n c
    o.seq (treeFoldX env ⟨g.depth, false, g.href, g.curId⟩ o.next cs)

/-- `write_decorated`: `write_content` on each child, clearing
`omit_initial_prefix` after the first. -/
def decFoldX (env : ScanEnv) (g : WalkCtx) (n : Nat) : PForest → WOut
  | .nil => WOut.empty n
  | .cons c cs =>
    let o := writeContentX env g n c
    o.seq (decFoldX env ⟨g.depth, false, g.href, g.curId⟩ o.next cs)

/-- `write_content`: leaves via the leaf/prefix/EndMarker handling, composite
nodes via the children loop (regardless of their class). -/
def writeContentX (env : ScanEnv) (g : WalkCtx) (n : Nat) : PTree → WOut
  | .leaf l => leafOut env g n l
  | .node _ _ cs => treeFoldX env g n cs

/-- `write_elided_def`: `write_content` on each child (with the caller's
unmodified context) until a direct child is the `':'` operator, after which a
single `' …'` `WS` marker token is appended (with the forced href and no
line) and the loop breaks; later children are never visited. -/
def writeElidedDefX (env : ScanEnv) (g : WalkCtx) (n : Nat) : PForest → WOut
  | .nil => WOut.empty n
  | .cons c cs =>
    let o := writeContentX env g n c
    if isColonOp c then
      o.seq ⟨[⟨TokType.WS, " …".data, g.href, none⟩], [], [], [], [], o.next⟩
    else
      o.seq (writeElidedDefX env g o.next cs)

/-- `write_elided_decorated_def`: `write_content` on each child until the
first `ClassOrFunc` child, which is rendered by `write_elided_def` on its
children and ends the loop. -/
def writeElidedDecX (env : ScanEnv) (g : WalkCtx) (n : Nat) : PForest → WOut
  | .nil => WOut.empty n
  | .cons (.node .classOrFunc _ cs2) _ => writeElidedDefX env g n cs2
  | .cons c cs =>
    let o := writeContentX env g n c
    o.seq (writeElidedDecX env g o.next cs)
end

/-- Concatenated text of a token sequence (what the writer stores as the
node's `text`, at the string level; `utf8Str` of this is the byte text). -/
def toksText (ts : List TokCall) : Str := (ts.map TokCall.text).flatten

/-- The per-file loop of `scan_repo`: each module child is walked by
`write_tree` with the same initial context (depth 0, no forced href,
`omit_initial_prefix` false, tokens into the `SourceFile` node). -/
def fileFoldX (env : ScanEnv) (n : Nat) : List PTree → WOut
  | [] => WOut.empty n
  | c :: cs =>
    let o := writeTreeX env ⟨0, false, none, 0⟩ n c
    o.seq (fileFoldX env o.next cs)

/-- Walk of one file's module children (node identity 0 is the `SourceFile`
node, fresh identities start at 1). -/
def runFile (env : ScanEnv) (children : List PTree) : WOut := fileFoldX env 1 children

/-- Metadata of the root `SourceFile` node: `begin_node` with no start
location stores `Location(line=0, column=0, offset=0)` and nest level 0. -/
def fileMeta (env : ScanEnv) : NodeMeta := ⟨env.path, 0, 0, 0, 0⟩

/-- The sequence of `write_node` calls made while processing one file: all
nodes flushed during the walk, then the `SourceFile` node itself. -/
def runFileNodes (env : ScanEnv) (children : List PTree) : List FRec :=
  let o := runFile env children
  o.flushed ++ [⟨0, none, fileMeta env, o.toks⟩]

/- ==========  source text, reconstruction, and well-formedness  ========== -/

mutual
/-- Source text of a subtree: every leaf contributes its prefix followed by
its value (parso's `get_code`); the whole file is the module children's
concatenation. -/
def srcCode : PTree → Str
  | .leaf l => l.pfx ++ l.val
  | .node _ _ cs => srcList cs
def srcList : PForest → Str
  | .nil => []
  | .cons c cs => srcCode c ++ srcList cs
end

/-- Source text of a subtree without the prefix of its leftmost leaf. -/
def stripT : PTree → Str
  | .leaf l => l.val
  | .node _ _ .nil => []
  | .node _ _ (.cons c cs) => stripT c ++ srcList cs

/-- Prefix of a subtree's leftmost leaf. -/
def leadT : PTree → Str
  | .leaf l => l.pfx
  | .node _ _ .nil => []
  | .node _ _ (.cons c _) => leadT c

mutual
/-- Well-formed parse subtree: no `EndMarker` occurs in it (parso produces
the end marker only as the last child of the module root) and every
composite node has at least one child. -/
def WFb : PTree → Bool
  | .leaf l => decide (l.kind ≠ LeafKind.endMarker)
  | .node _ _ .nil => false
  | .node _ _ (.cons c cs) => WFb c && WFbF cs
def WFbF : PForest → Bool
  | .nil => true
  | .cons c cs => WFb c && WFbF cs
end

/-- Leading whitespace text of a token sequence: the text of its first token
when that token is a `WS` token (value tokens are never `WS`-typed since
`tok_type` never returns `WS`), otherwise empty.  Identifies the leading
prefix token of an elided rendering. -/
def leadText : List TokCall → Str
  | [] => []
  | tk :: _ => if tk.typ = TokType.WS then tk.text else []

mutual
/-- Reconstruction of the original text from the walk's output, following
the round-trip claim: a definable unit's elision placeholder (its truncated
header and ellipsis marker — everything the elided rendering emits after its
leading whitespace token) is replaced by the recursively reconstructed
content of the unit's own Definition node (which was built with
`omit_initial_prefix` set, so the leading whitespace stays in the parent). -/
def reconTree (env : ScanEnv) (om : Bool) : PTree → Str
  | .leaf l =>
    if l.kind = LeafKind.endMarker then []
    else (if l.pfx ≠ [] ∧ om = false then l.pfx else []) ++ l.val
  | .node .plain _ cs => reconList env om cs
  | .node .classOrFunc nm cs =>
    let anc := defAnchor env (PTree.node .classOrFunc nm cs)
    leadText (writeElidedDefX env ⟨0, om, some anc.1, 0⟩ 0 cs).toks ++ reconList env true cs
  | .node .decorated nm cs =>
    let anc := defAnchor env (PTree.node .decorated nm cs)
    leadText (writeElidedDecX env ⟨0, om, some anc.1, 0⟩ 0 cs).toks ++ reconCFold env true cs
/-- Reconstruction mirroring `write_content` (used below a decorated node,
where the wrapped unit's own body was already rendered in full). -/
def reconCont (env : ScanEnv) (om : Bool) : PTree → Str
  | .leaf l =>
    if l.kind = LeafKind.endMarker then []
    else (if l.pfx ≠ [] ∧ om = false then l.pfx else []) ++ l.val
  | .node _ _ cs => reconList env om cs
def reconList (env : ScanEnv) (om : Bool) : PForest → Str
  | .nil => []
  | .cons c cs => reconTree env om c ++ reconList env false cs
def reconCFold (env : ScanEnv) (om : Bool) : PForest → Str
  | .nil => []
  | .cons c cs => reconCont env om c ++ reconCFold env false cs
end

/-- Reconstruction of a whole file from its module children, mirroring the
`scan_repo` loop. -/
def reconFile (env : ScanEnv) (children : List PTree) : Str :=
  (children.map (reconTree env false)).flatten

theorem WOut.seq_empty (a : WOut) : a.seq (WOut.empty a.next) = a := by
  simp [WOut.seq, WOut.empty]

theorem WOut.seq_assoc (a b c : WOut) : (a.seq b).seq c = a.seq (b.seq c) := by
  simp [WOut.seq]

/-- The truncated-header loop: `write_content` on successive children with
the caller's unmodified context, threading only the fresh-identity counter
(the shape of `write_elided_def`'s loop before the colon is reached). -/
def contentSeqX (env : ScanEnv) (g : WalkCtx) (n : Nat) : List PTree → WOut
  | [] => WOut.empty n
  | c :: cs =>
    let o := writeContentX env g n c
    o.seq (contentSeqX env g o.next cs)

/-- ClassOrFunc discriminator (`isinstance(c, ClassOrFunc)`). -/
def isCFb : PTree → Bool
  | .node .classOrFunc _ _ => true
  | _ => false

/-- C2: the elided rendering of a definition stops at the unit's own `':'`
operator child and appends exactly one `' …'` ellipsis marker token of type
`WS`; the unit's body (everything after the colon) contributes nothing, so
the rendering is the same whatever the body is.  For a decorated unit the
rendering is the decorators' content followed by the elided rendering of the
inner `ClassOrFunc`'s children, i.e. it terminates at the inner unit's own
colon. -/
theorem c2_theorem :
    (∀ (env : ScanEnv) (g : WalkCtx) (n : Nat) (pre : List PTree) (l : LeafI) (rest : List PTree),
      l.kind = LeafKind.operator → l.val = ":".data →
      (∀ c ∈ pre, isColonOp c = false) →
      writeElidedDefX env g n (PForest.ofList (pre ++ PTree.leaf l :: rest))
        = (contentSeqX env g n (pre ++ [PTree.leaf l])).seq
            ⟨[⟨TokType.WS, " …".data, g.href, none⟩], [], [], [], [],
              (contentSeqX env g n (pre ++ [PTree.leaf l])).next⟩)
    ∧ (∀ (env : ScanEnv) (g : WalkCtx) (n : Nat) (decs : List PTree) (nm : Option LeafI)
          (cs2 : PForest) (rest2 : List PTree),
      (∀ c ∈ decs, isCFb c = false) →
      writeElidedDecX env g n (PForest.ofList (decs ++ PTree.node NKind.classOrFunc nm cs2 :: rest2))
        = (contentSeqX env g n decs).seq
            (writeElidedDefX env g (contentSeqX env g n decs).next cs2)) := by
  constructor
  · intro env g n pre l rest hk hv hpre
    induction pre generalizing n with
    | nil =>
      have hc : isColonOp (PTree.leaf l) = true := by
        simp [isColonOp, hk, hv]
      simp only [List.nil_append, PForest.ofList, writeElidedDefX, hc, if_true,
        contentSeqX, WOut.seq_assoc]
      simp [WOut.seq, WOut.empty, contentSeqX]
    | cons c pre' ih =>
      have hc : isColonOp c = false := hpre c (by simp)
      have hpre' : ∀ x ∈ pre', isColonOp x = false := fun x hx => hpre x (by simp [hx])
      simp only [List.cons_append, PForest.ofList, writeElidedDefX, hc, if_false,
        Bool.false_eq_true, contentSeqX, List.append_eq]
      rw [ih _ hpre']
      simp [WOut.seq_assoc, WOut.seq]
  · intro env g n decs nm cs2 rest2 hdecs
    induction decs generalizing n with
    | nil =>
      simp only [List.nil_append, PForest.ofList, writeElidedDecX, contentSeqX]
      simp [WOut.seq, WOut.empty]
    | cons c decs' ih =>
      have hc : isCFb c = false := hdecs c (by simp)
      have hdecs' : ∀ x ∈ decs', isCFb x = false := fun x hx => hdecs x (by simp [hx])
      match c, hc with
      | PTree.leaf l, _ =>
        simp only [List.cons_append, PForest.ofList, writeElidedDecX, contentSeqX,
          List.append_eq]
        rw [ih _ hdecs']
        simp [WOut.seq_assoc, WOut.seq]
      | PTree.node NKind.decorated nm' cs', _ =>
        simp only [List.cons_append, PForest.ofList, writeElidedDecX, contentSeqX,
          List.append_eq]
        rw [ih _ hdecs']
        simp [WOut.seq_assoc, WOut.seq]
      | PTree.node NKind.plain nm' cs', _ =>
        simp only [List.cons_append, PForest.ofList, writeElidedDecX, contentSeqX,
          List.append_eq]
        rw [ih _ hdecs']
        simp [WOut.seq_assoc, WOut.seq]

/-- Concrete environment used by witnesses: a resolver that never finds a
target, identity canonicalization, zero offsets. -/
def envC : ScanEnv := ⟨"f.py", fun _ _ => none, id, fun _ _ _ => 0⟩

/-- Witness for `c2_theorem`: a three-child unit `def : \n` (header keyword,
colon, body leaf). -/
theorem c2_witness :
    (∀ c ∈ [PTree.leaf ⟨LeafKind.keyword, "def".data, [], 1, 0, 1⟩], isColonOp c = false)
    ∧ writeElidedDefX envC ⟨0, false, none, 0⟩ 0
        (PForest.ofList ([PTree.leaf ⟨LeafKind.keyword, "def".data, [], 1, 0, 1⟩]
          ++ PTree.leaf ⟨LeafKind.operator, ":".data, [], 1, 3, 1⟩
            :: [PTree.leaf ⟨LeafKind.other, "\n".data, [], 1, 4, 1⟩]))
        = (contentSeqX envC ⟨0, false, none, 0⟩ 0
            ([PTree.leaf ⟨LeafKind.keyword, "def".data, [], 1, 0, 1⟩]
              ++ [PTree.leaf ⟨LeafKind.operator, ":".data, [], 1, 3, 1⟩])).seq
            ⟨[⟨TokType.WS, " …".data, none, none⟩], [], [], [], [],
              (contentSeqX envC ⟨0, false, none, 0⟩ 0
                ([PTree.leaf ⟨LeafKind.keyword, "def".data, [], 1, 0, 1⟩]
                  ++ [PTree.leaf ⟨LeafKind.operator, ":".data, [], 1, 3, 1⟩])).next⟩ :=
  ⟨by decide,
    c2_theorem.1 envC ⟨0, false, none, 0⟩ 0
      [PTree.leaf ⟨LeafKind.keyword, "def".data, [], 1, 0, 1⟩]
      ⟨LeafKind.operator, ":".data, [], 1, 3, 1⟩
      [PTree.leaf ⟨LeafKind.other, "\n".data, [], 1, 4, 1⟩]
      rfl rfl (by decide)⟩

/-- C7 counterexample: the walk queries the resolver at a `'+'` operator
leaf, a punctuation-classified token, so resolution is not restricted to
identifier-like tokens. -/
theorem c7_counterexample :
    (writeContentX envC ⟨0, false, none, 0⟩ 0
        (PTree.leaf ⟨LeafKind.operator, "+".data, [], 1, 2, 1⟩)).queries = [(1, 2)]
    ∧ tokTypeOf LeafKind.operator = TokType.Punctuation
    ∧ TokType.Punctuation ≠ TokType.Identifier := by
  decide

/-- C7 (amended): during the walk the resolver is queried at a leaf token
exactly when the context carries no forced href and the token's value is
outside the fixed exclusion list (paren, comma, equals, dot, colon, closing
brace, newline) — regardless of the token's classification, so keywords, literals and
operators outside that list are also queried. -/
theorem c7_theorem :
    ∀ (env : ScanEnv) (g : WalkCtx) (n : Nat) (l : LeafI), l.kind ≠ LeafKind.endMarker →
      (writeContentX env g n (PTree.leaf l)).queries
        = if g.href = none ∧ l.val ∉ exclVals then [(l.line, l.col)] else [] := by
  intro env g n l hk
  show (leafOut env g n l).queries = _
  unfold leafOut
  rw [if_neg hk]
  cases hg : g.href with
  | some h' => simp [hg]
  | none =>
    by_cases hv : l.val ∈ exclVals
    · simp [hv]
    · cases hgoto : env.goto l.line l.col with
      | none => simp [hv, hgoto]
      | some rn =>
        rcases rn with ⟨mp, ln, co⟩
        cases mp <;> cases ln <;> cases co <;> simp [hv, hgoto]

/-- Witness for `c7_theorem` at an identifier leaf with no forced href. -/
theorem c7_witness :
    (writeContentX envC ⟨0, false, none, 0⟩ 0
        (PTree.leaf ⟨LeafKind.name, "x".data, [], 3, 7, 3⟩)).queries = [(3, 7)] := by
  have h := c7_theorem envC ⟨0, false, none, 0⟩ 0 ⟨LeafKind.name, "x".data, [], 3, 7, 3⟩ (by decide)
  rw [h]
  decide

theorem leafOut_noq (env : ScanEnv) (g : WalkCtx) (n : Nat) (l : LeafI)
    (h : g.href.isSome = true) :
    (leafOut env g n l).queries = [] ∧ (leafOut env g n l).adds = [] := by
  obtain ⟨hv, hh⟩ := Option.isSome_iff_exists.mp h
  unfold leafOut
  rw [hh]
  split <;> simp [WOut.empty]

mutual
theorem noqTree (env : ScanEnv) (g : WalkCtx) (n : Nat) (t : PTree)
    (h : g.href.isSome = true) :
    (writeTreeX env g n t).queries = [] ∧ (writeTreeX env g n t).adds = [] := by
  cases t with
  | leaf l => exact leafOut_noq env g n l h
  | node k nm cs =>
    cases k with
    | plain => exact noqFoldT env g n cs h
    | classOrFunc =>
      have h1 := noqFoldT env ⟨g.depth + 1, true, g.href, n⟩ (n + 1) cs h
      have h2 := noqED env
        ⟨g.depth, g.omitLead, some (defAnchor env (PTree.node NKind.classOrFunc nm cs)).1, g.curId⟩
        (treeFoldX env ⟨g.depth + 1, true, g.href, n⟩ (n + 1) cs).next cs rfl
      simp only [writeTreeX]
      exact ⟨by simp [h1.1, h2.1], by simp [h1.2, h2.2]⟩
    | decorated =>
      have h1 := noqFoldD env ⟨g.depth + 1, true, g.href, n⟩ (n + 1) cs h
      have h2 := noqEDec env
        ⟨g.depth, g.omitLead, some (defAnchor env (PTree.node NKind.decorated nm cs)).1, g.curId⟩
        (decFoldX env ⟨g.depth + 1, true, g.href, n⟩ (n + 1) cs).next cs rfl
      simp only [writeTreeX]
      exact ⟨by simp [h1.1, h2.1], by simp [h1.2, h2.2]⟩

theorem noqCont (env : ScanEnv) (g : WalkCtx) (n : Nat) (t : PTree)
    (h : g.href.isSome = true) :
    (writeContentX env g n t).queries = [] ∧ (writeContentX env g n t).adds = [] := by
  cases t with
  | leaf l => exact leafOut_noq env g n l h
  | node k nm cs => exact noqFoldT env g n cs h

theorem noqFoldT (env : ScanEnv) (g : WalkCtx) (n : Nat) (cs : PForest)
    (h : g.href.isSome = true) :
    (treeFoldX env g n cs).queries = [] ∧ (treeFoldX env g n cs).adds = [] := by
  cases cs with
  | nil => exact ⟨rfl, rfl⟩
  | cons c cs' =>
    have h1 := noqTree env g n c h
    have h2 := noqFoldT env ⟨g.depth, false, g.href, g.curId⟩ (writeTreeX env g n c).next cs' h
    simp only [treeFoldX]
    exact ⟨by simp [WOut.seq, h1.1, h2.1], by simp [WOut.seq, h1.2, h2.2]⟩

theorem noqFoldD (env : ScanEnv) (g : WalkCtx) (n : Nat) (cs : PForest)
    (h : g.href.isSome = true) :
    (decFoldX env g n cs).queries = [] ∧ (decFoldX env g n cs).adds = [] := by
  cases cs with
  | nil => exact ⟨rfl, rfl⟩
  | cons c cs' =>
    have h1 := noqCont env g n c h
    have h2 := noqFoldD env ⟨g.depth, false, g.href, g.curId⟩ (writeContentX env g n c).next cs' h
    simp only [decFoldX]
    exact ⟨by simp [WOut.seq, h1.1, h2.1], by simp [WOut.seq, h1.2, h2.2]⟩

theorem noqED (env : ScanEnv) (g : WalkCtx) (n : Nat) (cs : PForest)
    (h : g.href.isSome = true) :
    (writeElidedDefX env g n cs).queries = [] ∧ (writeElidedDefX env g n cs).adds = [] := by
  cases cs with
  | nil => exact ⟨rfl, rfl⟩
  | cons c cs' =>
    have h1 := noqCont env g n c h
    have h2 := noqED env g (writeContentX env g n c).next cs' h
    simp only [writeElidedDefX]
    split
    · exact ⟨by simp [WOut.seq, h1.1], by simp [WOut.seq, h1.2]⟩
    · exact ⟨by simp [WOut.seq, h1.1, h2.1], by simp [WOut.seq, h1.2, h2.2]⟩

theorem noqEDec (env : ScanEnv) (g : WalkCtx) (n : Nat) (cs : PForest)
    (h : g.href.isSome = true) :
    (writeElidedDecX env g n cs).queries = [] ∧ (writeElidedDecX env g n cs).adds = [] := by
  cases cs with
  | nil => exact ⟨rfl, rfl⟩
  | cons c cs' =>
    cases c with
    | leaf l =>
      have h1 := leafOut_noq env g n l h
      have h2 := noqEDec env g (leafOut env g n l).next cs' h
      simp only [writeElidedDecX]
      exact ⟨by simp [WOut.seq, writeContentX, h1.1, h2.1],
             by simp [WOut.seq, writeContentX, h1.2, h2.2]⟩
    | node k nm cs2 =>
      cases k with
      | classOrFunc => exact noqED env g n cs2 h
      | plain =>
        have h1 := noqCont env g n (PTree.node NKind.plain nm cs2) h
        have h2 := noqEDec env g (writeContentX env g n (PTree.node NKind.plain nm cs2)).next cs' h
        simp only [writeElidedDecX]
        exact ⟨by simp [WOut.seq, h1.1, h2.1], by simp [WOut.seq, h1.2, h2.2]⟩
      | decorated =>
        have h1 := noqCont env g n (PTree.node NKind.decorated nm cs2) h
        have h2 := noqEDec env g (writeContentX env g n (PTree.node NKind.decorated nm cs2)).next cs' h
        simp only [writeElidedDecX]
        exact ⟨by simp [WOut.seq, h1.1, h2.1], by simp [WOut.seq, h1.2, h2.2]⟩
end

/-- C10: a walk context carrying a forced href never queries the resolver
and never registers a file with the scan queue; in particular the elided
renderings (which `write_tree` always starts with a forced href) make no
`goto` queries and no `add_imported` calls, so folding their `add_imported`
calls over any queue state leaves it unchanged. -/
theorem c10_theorem :
    ∀ (env : ScanEnv) (g : WalkCtx) (h : Href) (n : Nat) (cs : PForest) (sys : Bool)
      (canon2 : String → String) (st : QSt),
      g.href = some h →
        ((writeElidedDefX env g n cs).queries = []
          ∧ (writeElidedDefX env g n cs).adds = []
          ∧ (writeElidedDefX env g n cs).adds.foldl (addImportedQ sys canon2) st = st)
        ∧ ((writeElidedDecX env g n cs).queries = []
          ∧ (writeElidedDecX env g n cs).adds = []
          ∧ (writeElidedDecX env g n cs).adds.foldl (addImportedQ sys canon2) st = st) := by
  intro env g h n cs sys canon2 st hg
  have hs : g.href.isSome = true := by simp [hg]
  have h1 := noqED env g n cs hs
  have h2 := noqEDec env g n cs hs
  exact ⟨⟨h1.1, h1.2, by rw [h1.2]; rfl⟩, ⟨h2.1, h2.2, by rw [h2.2]; rfl⟩⟩

/-- Witness for `c10_theorem` on a one-leaf elided rendering. -/
theorem c10_witness :
    ((writeElidedDefX envC ⟨0, false, some ⟨"f.py", 0⟩, 0⟩ 0
        (PForest.cons (PTree.leaf ⟨LeafKind.keyword, "def".data, [], 1, 0, 1⟩) PForest.nil)).queries = []
      ∧ (writeElidedDefX envC ⟨0, false, some ⟨"f.py", 0⟩, 0⟩ 0
        (PForest.cons (PTree.leaf ⟨LeafKind.keyword, "def".data, [], 1, 0, 1⟩) PForest.nil)).adds = []
      ∧ (writeElidedDefX envC ⟨0, false, some ⟨"f.py", 0⟩, 0⟩ 0
        (PForest.cons (PTree.leaf ⟨LeafKind.keyword, "def".data, [], 1, 0, 1⟩) PForest.nil)).adds.foldl
          (addImportedQ true id) ⟨[], []⟩ = ⟨[], []⟩)
    ∧ ((writeElidedDecX envC ⟨0, false, some ⟨"f.py", 0⟩, 0⟩ 0
        (PForest.cons (PTree.leaf ⟨LeafKind.keyword, "def".data, [], 1, 0, 1⟩) PForest.nil)).queries = []
      ∧ (writeElidedDecX envC ⟨0, false, some ⟨"f.py", 0⟩, 0⟩ 0
        (PForest.cons (PTree.leaf ⟨LeafKind.keyword, "def".data, [], 1, 0, 1⟩) PForest.nil)).adds = []
      ∧ (writeElidedDecX envC ⟨0, false, some ⟨"f.py", 0⟩, 0⟩ 0
        (PForest.cons (PTree.leaf ⟨LeafKind.keyword, "def".data, [], 1, 0, 1⟩) PForest.nil)).adds.foldl
          (addImportedQ true id) ⟨[], []⟩ = ⟨[], []⟩) :=
  c10_theorem envC ⟨0, false, some ⟨"f.py", 0⟩, 0⟩ ⟨"f.py", 0⟩ 0
    (PForest.cons (PTree.leaf ⟨LeafKind.keyword, "def".data, [], 1, 0, 1⟩) PForest.nil)
    true id ⟨[], []⟩ rfl

theorem lead_strip : (t : PTree) → leadT t ++ stripT t = srcCode t
  | .leaf _ => rfl
  | .node _ _ .nil => rfl
  | .node k nm (.cons c cs') => by
    show leadT c ++ (stripT c ++ srcList cs') = srcCode c ++ srcList cs'
    rw [← List.append_assoc, lead_strip c]

theorem tokTypeOf_ne_WS : ∀ k : LeafKind, tokTypeOf k ≠ TokType.WS := by
  intro k
  cases k <;> simp [tokTypeOf]

/-- Shape of a walk fragment's first token: non-empty, beginning either with
the leading-prefix `WS` token (when the context does not suppress it and the
leftmost leaf's prefix `ld` is non-empty) or with a non-`WS` value token. -/
def headSpec (om : Bool) (ld : Str) (ts : List TokCall) : Prop :=
  ∃ tk rest, ts = tk :: rest
    ∧ ((om = false ∧ ld ≠ [] ∧ tk.typ = TokType.WS ∧ tk.text = ld)
       ∨ ((om = true ∨ ld = []) ∧ tk.typ ≠ TokType.WS))

theorem headSpec_append {om : Bool} {ld : Str} {ts : List TokCall} (X : List TokCall)
    (h : headSpec om ld ts) : headSpec om ld (ts ++ X) := by
  obtain ⟨tk, rest, he, hc⟩ := h
  exact ⟨tk, rest ++ X, by rw [he]; rfl, hc⟩

theorem leadText_headSpec {om : Bool} {ld : Str} {ts : List TokCall}
    (h : headSpec om ld ts) : leadText ts = if om then [] else ld := by
  obtain ⟨tk, rest, he, hc⟩ := h
  rw [he]
  rcases hc with ⟨h1, h2, h3, h4⟩ | ⟨h1, h2⟩
  · simp [leadText, h3, h4, h1]
  · rcases h1 with h1 | h1
    · simp [leadText, if_neg h2, h1]
    · cases om <;> simp [leadText, if_neg h2, h1]

theorem leafOut_toks (env : ScanEnv) (g : WalkCtx) (n : Nat) (l : LeafI)
    (hk : l.kind ≠ LeafKind.endMarker) :
    ∃ h, (leafOut env g n l).toks
      = (if l.pfx ≠ [] ∧ g.omitLead = false then [⟨TokType.WS, l.pfx, g.href, some l.pfxLine⟩] else [])
        ++ [⟨tokTypeOf l.kind, l.val, h, some l.line⟩] := by
  unfold leafOut
  rw [if_neg hk]
  cases hg : g.href with
  | some h' => exact ⟨some h', rfl⟩
  | none =>
    by_cases hv : l.val ∈ exclVals
    · simp only [if_pos hv]
      exact ⟨none, rfl⟩
    · simp only [if_neg hv]
      cases hgoto : env.goto l.line l.col with
      | none => exact ⟨none, rfl⟩
      | some rn =>
        rcases rn with ⟨mp, ln, co⟩
        cases ln with
        | none => cases co <;> cases mp <;> exact ⟨none, rfl⟩
        | some ln =>
          cases co with
          | none => cases mp <;> exact ⟨none, rfl⟩
          | some co =>
            cases mp with
            | none => exact ⟨none, rfl⟩
            | some mp => exact ⟨some ⟨env.canon mp, env.offsetOf (env.canon mp) ln co⟩, rfl⟩

theorem headLeaf (env : ScanEnv) (g : WalkCtx) (n : Nat) (l : LeafI)
    (hk : l.kind ≠ LeafKind.endMarker) :
    headSpec g.omitLead (leadT (PTree.leaf l)) (leafOut env g n l).toks := by
  obtain ⟨h, he⟩ := leafOut_toks env g n l hk
  rw [he]
  by_cases hp : l.pfx ≠ [] ∧ g.omitLead = false
  · rw [if_pos hp]
    exact ⟨_, _, rfl, Or.inl ⟨hp.2, hp.1, rfl, rfl⟩⟩
  · rw [if_neg hp]
    refine ⟨_, _, rfl, Or.inr ⟨?_, tokTypeOf_ne_WS l.kind⟩⟩
    by_cases hpe : l.pfx = []
    · exact Or.inr hpe
    · cases hb : g.omitLead with
      | false => exact absurd ⟨hpe, hb⟩ hp
      | true => exact Or.inl rfl

mutual
theorem headTree : (env : ScanEnv) → (g : WalkCtx) → (n : Nat) → (t : PTree) →
    WFb t = true → headSpec g.omitLead (leadT t) (writeTreeX env g n t).toks
  | env, g, n, .leaf l, hw => headLeaf env g n l (by simpa [WFb] using hw)
  | env, g, n, .node k nm .nil, hw => by cases k <;> simp [WFb] at hw
  | env, g, n, .node .plain nm (.cons c cs'), hw => by
    have hwc : WFb c = true := by
      simp only [WFb, Bool.and_eq_true] at hw
      exact hw.1
    show headSpec g.omitLead (leadT c)
      ((writeTreeX env g n c).seq
        (treeFoldX env ⟨g.depth, false, g.href, g.curId⟩ (writeTreeX env g n c).next cs')).toks
    exact headSpec_append _ (headTree env g n c hwc)
  | env, g, n, .node .classOrFunc nm (.cons c cs'), hw => by
    have hwc : WFb c = true := by
      simp only [WFb, Bool.and_eq_true] at hw
      exact hw.1
    show headSpec g.omitLead (leadT c)
      (writeTreeX env g n (PTree.node NKind.classOrFunc nm (PForest.cons c cs'))).toks
    simp only [writeTreeX]
    exact headED env _ _ c cs' hwc
  | env, g, n, .node .decorated nm (.cons c cs'), hw => by
    have hwc : WFb c = true := by
      simp only [WFb, Bool.and_eq_true] at hw
      exact hw.1
    show headSpec g.omitLead (leadT c)
      (writeTreeX env g n (PTree.node NKind.decorated nm (PForest.cons c cs'))).toks
    simp only [writeTreeX]
    exact headEDec env _ _ c cs' hwc
termination_by env g n t hw => 3 * sizeOf t

theorem headCont : (env : ScanEnv) → (g : WalkCtx) → (n : Nat) → (t : PTree) →
    WFb t = true → headSpec g.omitLead (leadT t) (writeContentX env g n t).toks
  | env, g, n, .leaf l, hw => headLeaf env g n l (by simpa [WFb] using hw)
  | env, g, n, .node k nm .nil, hw => by cases k <;> simp [WFb] at hw
  | env, g, n, .node k nm (.cons c cs'), hw => by
    have hwc : WFb c = true := by
      simp only [WFb, Bool.and_eq_true] at hw
      exact hw.1
    show headSpec g.omitLead (leadT c)
      ((writeTreeX env g n c).seq
        (treeFoldX env ⟨g.depth, false, g.href, g.curId⟩ (writeTreeX env g n c).next cs')).toks
    exact headSpec_append _ (headTree env g n c hwc)
termination_by env g n t hw => 3 * sizeOf t

theorem headED : (env : ScanEnv) → (g : WalkCtx) → (n : Nat) → (c : PTree) → (cs' : PForest) →
    WFb c = true → headSpec g.omitLead (leadT c) (writeElidedDefX env g n (PForest.cons c cs')).toks
  | env, g, n, c, cs', hwc => by
    simp only [writeElidedDefX]
    split
    · exact headSpec_append _ (headCont env g n c hwc)
    · exact headSpec_append _ (headCont env g n c hwc)
termination_by env g n c cs' hwc => 3 * sizeOf c + 1

theorem headEDec : (env : ScanEnv) → (g : WalkCtx) → (n : Nat) → (c : PTree) → (cs' : PForest) →
    WFb c = true → headSpec g.omitLead (leadT c) (writeElidedDecX env g n (PForest.cons c cs')).toks
  | env, g, n, .leaf l, cs', hwc => by
    show headSpec g.omitLead (leadT (PTree.leaf l))
      ((writeContentX env g n (PTree.leaf l)).seq
        (writeElidedDecX env g (writeContentX env g n (PTree.leaf l)).next cs')).toks
    exact headSpec_append _ (headCont env g n (PTree.leaf l) hwc)
  | env, g, n, .node .classOrFunc nm .nil, cs', hwc => by simp [WFb] at hwc
  | env, g, n, .node .classOrFunc nm (.cons c2 cs2'), cs', hwc => by
    have hwc2 : WFb c2 = true := by
      simp only [WFb, Bool.and_eq_true] at hwc
      exact hwc.1
    show headSpec g.omitLead (leadT c2) (writeElidedDefX env g n (PForest.cons c2 cs2')).toks
    exact headED env g n c2 cs2' hwc2
  | env, g, n, .node .plain nm cs2, cs', hwc => by
    show headSpec g.omitLead (leadT (PTree.node NKind.plain nm cs2))
      ((writeContentX env g n (PTree.node NKind.plain nm cs2)).seq
        (writeElidedDecX env g (writeContentX env g n (PTree.node NKind.plain nm cs2)).next cs')).toks
    exact headSpec_append _ (headCont env g n (PTree.node NKind.plain nm cs2) hwc)
  | env, g, n, .node .decorated nm cs2, cs', hwc => by
    show headSpec g.omitLead (leadT (PTree.node NKind.decorated nm cs2))
      ((writeContentX env g n (PTree.node NKind.decorated nm cs2)).seq
        (writeElidedDecX env g (writeContentX env g n (PTree.node NKind.decorated nm cs2)).next cs')).toks
    exact headSpec_append _ (headCont env g n (PTree.node NKind.decorated nm cs2) hwc)
termination_by env g n c cs' hwc => 3 * sizeOf c + 2
end

/-- Source text of a forest without the prefix of its first leaf. -/
def stripF : PForest → Str
  | .nil => []
  | .cons c cs => stripT c ++ srcList cs

mutual
theorem reconTree_eq : (env : ScanEnv) → (om : Bool) → (t : PTree) → WFb t = true →
    reconTree env om t = cond om (stripT t) (srcCode t)
  | env, om, .leaf l, hw => by
    have hk : l.kind ≠ LeafKind.endMarker := by simpa [WFb] using hw
    show reconTree env om (PTree.leaf l) = _
    simp only [reconTree, if_neg hk]
    cases om with
    | true => simp [stripT]
    | false =>
      by_cases hp : l.pfx = []
      · simp [hp, srcCode]
      · simp [hp, srcCode]
  | env, om, .node k nm .nil, hw => by cases k <;> simp [WFb] at hw
  | env, om, .node .plain nm (.cons c cs'), hw => by
    have hwF : WFbF (PForest.cons c cs') = true := hw
    show reconList env om (PForest.cons c cs') = _
    rw [reconList_eq env om (PForest.cons c cs') hwF]
    cases om <;> rfl
  | env, om, .node .classOrFunc nm (.cons c cs'), hw => by
    have hwc : WFb c = true := by
      simp only [WFb, Bool.and_eq_true] at hw
      exact hw.1
    have hwF : WFbF (PForest.cons c cs') = true := hw
    have hl : leadText (writeElidedDefX env
        ⟨0, om, some (defAnchor env (PTree.node NKind.classOrFunc nm (PForest.cons c cs'))).1, 0⟩
        0 (PForest.cons c cs')).toks = if om then [] else leadT c :=
      leadText_headSpec (headED env
        ⟨0, om, some (defAnchor env (PTree.node NKind.classOrFunc nm (PForest.cons c cs'))).1, 0⟩
        0 c cs' hwc)
    show leadText (writeElidedDefX env
        ⟨0, om, some (defAnchor env (PTree.node NKind.classOrFunc nm (PForest.cons c cs'))).1, 0⟩
        0 (PForest.cons c cs')).toks ++ reconList env true (PForest.cons c cs') = _
    rw [hl, reconList_eq env true (PForest.cons c cs') hwF]
    cases om with
    | true => rfl
    | false =>
      show leadT c ++ (stripT c ++ srcList cs') = srcCode c ++ srcList cs'
      rw [← List.append_assoc, lead_strip c]
  | env, om, .node .decorated nm (.cons c cs'), hw => by
    have hwc : WFb c = true := by
      simp only [WFb, Bool.and_eq_true] at hw
      exact hw.1
    have hwF : WFbF (PForest.cons c cs') = true := hw
    have hl : leadText (writeElidedDecX env
        ⟨0, om, some (defAnchor env (PTree.node NKind.decorated nm (PForest.cons c cs'))).1, 0⟩
        0 (PForest.cons c cs')).toks = if om then [] else leadT c :=
      leadText_headSpec (headEDec env
        ⟨0, om, some (defAnchor env (PTree.node NKind.decorated nm (PForest.cons c cs'))).1, 0⟩
        0 c cs' hwc)
    show leadText (writeElidedDecX env
        ⟨0, om, some (defAnchor env (PTree.node NKind.decorated nm (PForest.cons c cs'))).1, 0⟩
        0 (PForest.cons c cs')).toks ++ reconCFold env true (PForest.cons c cs') = _
    rw [hl, reconCFold_eq env true (PForest.cons c cs') hwF]
    cases om with
    | true => rfl
    | false =>
      show leadT c ++ (stripT c ++ srcList cs') = srcCode c ++ srcList cs'
      rw [← List.append_assoc, lead_strip c]
termination_by env om t hw => sizeOf t

theorem reconCont_eq : (env : ScanEnv) → (om : Bool) → (t : PTree) → WFb t = true →
    reconCont env om t = cond om (stripT t) (srcCode t)
  | env, om, .leaf l, hw => by
    have hk : l.kind ≠ LeafKind.endMarker := by simpa [WFb] using hw
    show reconCont env om (PTree.leaf l) = _
    simp only [reconCont, if_neg hk]
    cases om with
    | true => simp [stripT]
    | false =>
      by_cases hp : l.pfx = []
      · simp [hp, srcCode]
      · simp [hp, srcCode]
  | env, om, .node k nm .nil, hw => by cases k <;> simp [WFb] at hw
  | env, om, .node k nm (.cons c cs'), hw => by
    have hwF : WFbF (PForest.cons c cs') = true := by
      cases k <;> exact hw
    show reconList env om (PForest.cons c cs') = _
    rw [reconList_eq env om (PForest.cons c cs') hwF]
    cases om <;> rfl
termination_by env om t hw => sizeOf t

theorem reconList_eq : (env : ScanEnv) → (om : Bool) → (cs : PForest) → WFbF cs = true →
    reconList env om cs = cond om (stripF cs) (srcList cs)
  | env, om, .nil, _ => by cases om <;> rfl
  | env, om, .cons c cs', hw => by
    have hwc : WFb c = true := by
      simp only [WFbF, Bool.and_eq_true] at hw
      exact hw.1
    have hwf : WFbF cs' = true := by
      simp only [WFbF, Bool.and_eq_true] at hw
      exact hw.2
    show reconTree env om c ++ reconList env false cs' = _
    rw [reconTree_eq env om c hwc, reconList_eq env false cs' hwf]
    cases om <;> rfl
termination_by env om cs hw => sizeOf cs

theorem reconCFold_eq : (env : ScanEnv) → (om : Bool) → (cs : PForest) → WFbF cs = true →
    reconCFold env om cs = cond om (stripF cs) (srcList cs)
  | env, om, .nil, _ => by cases om <;> rfl
  | env, om, .cons c cs', hw => by
    have hwc : WFb c = true := by
      simp only [WFbF, Bool.and_eq_true] at hw
      exact hw.1
    have hwf : WFbF cs' = true := by
      simp only [WFbF, Bool.and_eq_true] at hw
      exact hw.2
    show reconCont env om c ++ reconCFold env false cs' = _
    rw [reconCont_eq env om c hwc, reconCFold_eq env false cs' hwf]
    cases om <;> rfl
termination_by env om cs hw => sizeOf cs
end

theorem srcList_ofList : ∀ L : List PTree, srcList (PForest.ofList L) = (L.map srcCode).flatten := by
  intro L
  induction L with
  | nil => rfl
  | cons c cs ih => simp only [PForest.ofList, srcList, List.map_cons, List.flatten_cons, ih]

/-- C1 (amended): reconstructing a file from the walk output — the root
node's rendering with every definable unit's elision placeholder replaced by
the recursively reconstructed content of the unit's own Definition node —
reproduces the original file's bytes with the end marker's prefix (the
trailing trivia after the last real token, which `write_content` drops by
returning early on `EndMarker`) removed: reconstruction plus that trailing
prefix equals the file's bytes, so the round trip is byte-exact exactly when
there is no trailing trivia. -/
theorem c1_theorem :
    ∀ (env : ScanEnv) (body : List PTree) (l : LeafI),
      (∀ c ∈ body, WFb c = true) → l.kind = LeafKind.endMarker → l.val = [] →
      utf8Str (reconFile env (body ++ [PTree.leaf l])) ++ utf8Str l.pfx
        = utf8Str (srcList (PForest.ofList (body ++ [PTree.leaf l]))) := by
  intro env body l hwf hk hv
  have h1 : reconTree env false (PTree.leaf l) = [] := by
    simp [reconTree, hk]
  have hmap : body.map (reconTree env false) = body.map srcCode := by
    induction body with
    | nil => rfl
    | cons c cs ih =>
      simp only [List.map_cons]
      rw [reconTree_eq env false c (hwf c (by simp)), ih (fun x hx => hwf x (by simp [hx]))]
      rfl
  rw [← utf8Str_append]
  congr 1
  rw [srcList_ofList]
  simp only [reconFile, List.map_append, List.map_cons, List.map_nil, List.flatten_append,
    List.flatten_cons, List.flatten_nil, h1, hmap]
  simp [srcCode, hv]

/-- C1 counterexample to the claim as stated: for a file whose end marker
carries a non-empty prefix (trailing trivia, here a final blank line), the
reconstruction is not the original bytes — the trailing `"\n"` is lost. -/
theorem c1_counterexample :
    reconFile envC
        [PTree.leaf ⟨LeafKind.name, "x".data, [], 1, 0, 1⟩,
         PTree.leaf ⟨LeafKind.endMarker, [], "\n".data, 2, 0, 1⟩]
      ≠ srcList (PForest.ofList
        [PTree.leaf ⟨LeafKind.name, "x".data, [], 1, 0, 1⟩,
         PTree.leaf ⟨LeafKind.endMarker, [], "\n".data, 2, 0, 1⟩]) := by
  decide

/-- Concrete single-definition module used by the round-trip witness:
`def foo(a):\n    return a\n`. -/
def fooT : PTree :=
  PTree.node NKind.classOrFunc (some ⟨LeafKind.name, "foo".data, " ".data, 1, 4, 1⟩)
    (PForest.ofList
      [PTree.leaf ⟨LeafKind.keyword, "def".data, [], 1, 0, 1⟩,
       PTree.leaf ⟨LeafKind.name, "foo".data, " ".data, 1, 4, 1⟩,
       PTree.node NKind.plain none (PForest.ofList
         [PTree.leaf ⟨LeafKind.operator, "(".data, [], 1, 7, 1⟩,
          PTree.leaf ⟨LeafKind.name, "a".data, [], 1, 8, 1⟩,
          PTree.leaf ⟨LeafKind.operator, ")".data, [], 1, 9, 1⟩]),
       PTree.leaf ⟨LeafKind.operator, ":".data, [], 1, 10, 1⟩,
       PTree.node NKind.plain none (PForest.ofList
         [PTree.leaf ⟨LeafKind.other, "\n".data, [], 1, 11, 1⟩,
          PTree.node NKind.plain none (PForest.ofList
            [PTree.leaf ⟨LeafKind.keyword, "return".data, "    ".data, 2, 4, 2⟩,
             PTree.leaf ⟨LeafKind.name, "a".data, " ".data, 2, 11, 2⟩,
             PTree.leaf ⟨LeafKind.other, "\n".data, [], 2, 12, 2⟩])])])

/-- Witness for `c1_theorem` on the one-function module with a trailing
blank line. -/
theorem c1_witness :
    (∀ c ∈ [fooT], WFb c = true)
    ∧ utf8Str (reconFile envC ([fooT] ++ [PTree.leaf ⟨LeafKind.endMarker, [], "\n".data, 3, 0, 2⟩]))
        ++ utf8Str ("\n".data)
      = utf8Str (srcList (PForest.ofList
          ([fooT] ++ [PTree.leaf ⟨LeafKind.endMarker, [], "\n".data, 3, 0, 2⟩]))) :=
  ⟨by decide, c1_theorem envC [fooT] ⟨LeafKind.endMarker, [], "\n".data, 3, 0, 2⟩ (by decide) rfl rfl⟩

/-- Flush-order invariant for a walk fragment run with current node `cur`
and fresh identities from `n`: the next fresh identity is at least `n`;
every flushed record's identity lies in `[n, nxt)`; the flushed identities
are pairwise distinct; and every flushed record's parent is either the
current node or a record flushed later in the fragment (its elision
placeholder's target), with the child strictly before it. -/
def flInv (cur n : Nat) (fl : List FRec) (nxt : Nat) : Prop :=
  n ≤ nxt
  ∧ (∀ f ∈ fl, n ≤ f.id ∧ f.id < nxt)
  ∧ (fl.map FRec.id).Nodup
  ∧ (∀ f ∈ fl, f.parent = some cur
       ∨ ∃ A gg B, fl = A ++ gg :: B ∧ some gg.id = f.parent ∧ f ∈ A)

theorem flInv_nil (cur n : Nat) : flInv cur n [] n :=
  ⟨le_refl n, by simp, by simp, by simp⟩

theorem flInv_seq {cur n m k : Nat} {fl1 fl2 : List FRec}
    (h1 : flInv cur n fl1 m) (h2 : flInv cur m fl2 k) :
    flInv cur n (fl1 ++ fl2) k := by
  obtain ⟨hn1, hr1, hd1, hp1⟩ := h1
  obtain ⟨hn2, hr2, hd2, hp2⟩ := h2
  refine ⟨le_trans hn1 hn2, ?_, ?_, ?_⟩
  · intro f hf
    rcases List.mem_append.mp hf with hf | hf
    · exact ⟨(hr1 f hf).1, lt_of_lt_of_le (hr1 f hf).2 hn2⟩
    · exact ⟨le_trans hn1 (hr2 f hf).1, (hr2 f hf).2⟩
  · rw [List.map_append]
    refine List.Nodup.append hd1 hd2 ?_
    intro x hx1 hx2
    obtain ⟨f1, hf1, he1⟩ := List.mem_map.mp hx1
    obtain ⟨f2, hf2, he2⟩ := List.mem_map.mp hx2
    have := (hr1 f1 hf1).2
    have := (hr2 f2 hf2).1
    omega
  · intro f hf
    rcases List.mem_append.mp hf with hf | hf
    · rcases hp1 f hf with h | ⟨A, gg, B, heq, hid, hfA⟩
      · exact Or.inl h
      · exact Or.inr ⟨A, gg, B ++ fl2, by rw [heq]; simp, hid, hfA⟩
    · rcases hp2 f hf with h | ⟨A, gg, B, heq, hid, hfA⟩
      · exact Or.inl h
      · exact Or.inr ⟨fl1 ++ A, gg, B, by rw [heq]; simp, hid, by simp [hfA]⟩

theorem flInv_defn {cur n m k : Nat} {fl1 fl2 : List FRec} {meta : NodeMeta} {tks : List TokCall}
    (hg : cur < n) (h1 : flInv n (n + 1) fl1 m) (h2 : flInv cur m fl2 k) :
    flInv cur n (fl1 ++ ⟨n, some cur, meta, tks⟩ :: fl2) k := by
  obtain ⟨hn1, hr1, hd1, hp1⟩ := h1
  obtain ⟨hn2, hr2, hd2, hp2⟩ := h2
  have hnk : n ≤ k := by omega
  refine ⟨hnk, ?_, ?_, ?_⟩
  · intro f hf
    rcases List.mem_append.mp hf with hf | hf
    · have := hr1 f hf
      omega
    · rcases List.mem_cons.mp hf with rfl | hf
      · constructor <;> simp <;> omega
      · have := hr2 f hf
        omega
  · rw [List.map_append, List.map_cons, List.nodup_middle, List.nodup_cons]
    constructor
    · intro hmem
      rcases List.mem_append.mp hmem with hx | hx
      · obtain ⟨f, hf, he⟩ := List.mem_map.mp hx
        have := (hr1 f hf).1
        simp only [] at he
        omega
      · obtain ⟨f, hf, he⟩ := List.mem_map.mp hx
        have := (hr2 f hf).1
        simp only [] at he
        omega
    · refine List.Nodup.append hd1 hd2 ?_
      intro x hx1 hx2
      obtain ⟨f1, hf1, he1⟩ := List.mem_map.mp hx1
      obtain ⟨f2, hf2, he2⟩ := List.mem_map.mp hx2
      have := (hr1 f1 hf1).2
      have := (hr2 f2 hf2).1
      omega
  · intro f hf
    rcases List.mem_append.mp hf with hf | hf
    · rcases hp1 f hf with h | ⟨A, gg, B, heq, hid, hfA⟩
      · exact Or.inr ⟨fl1, ⟨n, some cur, meta, tks⟩, fl2, rfl, by rw [h], hf⟩
      · exact Or.inr ⟨A, gg, B ++ ⟨n, some cur, meta, tks⟩ :: fl2, by rw [heq]; simp, hid, hfA⟩
    · rcases List.mem_cons.mp hf with rfl | hf
      · exact Or.inl rfl
      · rcases hp2 f hf with h | ⟨A, gg, B, heq, hid, hfA⟩
        · exact Or.inl h
        · exact Or.inr ⟨fl1 ++ ⟨n, some cur, meta, tks⟩ :: A, gg, B, by rw [heq]; simp, hid,
            by simp [hfA]⟩

theorem leafOut_shape (env : ScanEnv) (g : WalkCtx) (n : Nat) (l : LeafI) :
    ∃ ts q a, leafOut env g n l = ⟨ts, [], q, a, [], n⟩ := by
  unfold leafOut
  by_cases hk : l.kind = LeafKind.endMarker
  · rw [if_pos hk]
    exact ⟨[], [], [], rfl⟩
  · rw [if_neg hk]
    cases hg : g.href with
    | some h' => exact ⟨_, _, _, rfl⟩
    | none =>
      by_cases hv : l.val ∈ exclVals
      · simp only [if_pos hv]
        exact ⟨_, _, _, rfl⟩
      · simp only [if_neg hv]
        cases hgoto : env.goto l.line l.col with
        | none => exact ⟨_, _, _, rfl⟩
        | some rn =>
          rcases rn with ⟨mp, ln, co⟩
          cases ln with
          | none => cases co <;> cases mp <;> exact ⟨_, _, _, rfl⟩
          | some ln =>
            cases co with
            | none => cases mp <;> exact ⟨_, _, _, rfl⟩
            | some co => cases mp <;> exact ⟨_, _, _, rfl⟩

theorem flLeaf (env : ScanEnv) (g : WalkCtx) (n : Nat) (l : LeafI) :
    flInv g.curId n (leafOut env g n l).flushed (leafOut env g n l).next := by
  obtain ⟨ts, q, a, he⟩ := leafOut_shape env g n l
  rw [he]
  exact flInv_nil _ n

mutual
theorem flTree : (env : ScanEnv) → (g : WalkCtx) → (n : Nat) → (t : PTree) → g.curId < n →
    flInv g.curId n (writeTreeX env g n t).flushed (writeTreeX env g n t).next
  | env, g, n, .leaf l, _ => flLeaf env g n l
  | env, g, n, .node .plain nm cs, hg => flFoldT env g n cs hg
  | env, g, n, .node .classOrFunc nm cs, hg => by
    have h1 := flFoldT env ⟨g.depth + 1, true, g.href, n⟩ (n + 1) cs (by show n < n + 1; omega)
    have hm : n + 1 ≤ (treeFoldX env ⟨g.depth + 1, true, g.href, n⟩ (n + 1) cs).next := h1.1
    have h2 := flED env
      ⟨g.depth, g.omitLead, some (defAnchor env (PTree.node NKind.classOrFunc nm cs)).1, g.curId⟩
      (treeFoldX env ⟨g.depth + 1, true, g.href, n⟩ (n + 1) cs).next cs
      (by show g.curId < _; omega)
    exact flInv_defn hg h1 h2
  | env, g, n, .node .decorated nm cs, hg => by
    have h1 := flFoldD env ⟨g.depth + 1, true, g.href, n⟩ (n + 1) cs (by show n < n + 1; omega)
    have hm : n + 1 ≤ (decFoldX env ⟨g.depth + 1, true, g.href, n⟩ (n + 1) cs).next := h1.1
    have h2 := flEDec env
      ⟨g.depth, g.omitLead, some (defAnchor env (PTree.node NKind.decorated nm cs)).1, g.curId⟩
      (decFoldX env ⟨g.depth + 1, true, g.href, n⟩ (n + 1) cs).next cs
      (by show g.curId < _; omega)
    exact flInv_defn hg h1 h2
termination_by env g n t hg => 3 * sizeOf t

theorem flCont : (env : ScanEnv) → (g : WalkCtx) → (n : Nat) → (t : PTree) → g.curId < n →
    flInv g.curId n (writeContentX env g n t).flushed (writeContentX env g n t).next
  | env, g, n, .leaf l, _ => flLeaf env g n l
  | env, g, n, .node k nm cs, hg => by
    show flInv g.curId n (treeFoldX env g n cs).flushed (treeFoldX env g n cs).next
    exact flFoldT env g n cs hg
termination_by env g n t hg => 3 * sizeOf t

theorem flFoldT : (env : ScanEnv) → (g : WalkCtx) → (n : Nat) → (cs : PForest) → g.curId < n →
    flInv g.curId n (treeFoldX env g n cs).flushed (treeFoldX env g n cs).next
  | env, g, n, .nil, _ => flInv_nil _ n
  | env, g, n, .cons c cs', hg => by
    have h1 := flTree env g n c hg
    have h2 := flFoldT env ⟨g.depth, false, g.href, g.curId⟩ (writeTreeX env g n c).next cs'
      (by show g.curId < _; have := h1.1; omega)
    exact flInv_seq h1 h2
termination_by env g n cs hg => 3 * sizeOf cs

theorem flFoldD : (env : ScanEnv) → (g : WalkCtx) → (n : Nat) → (cs : PForest) → g.curId < n →
    flInv g.curId n (decFoldX env g n cs).flushed (decFoldX env g n cs).next
  | env, g, n, .nil, _ => flInv_nil _ n
  | env, g, n, .cons c cs', hg => by
    have h1 := flCont env g n c hg
    have h2 := flFoldD env ⟨g.depth, false, g.href, g.curId⟩ (writeContentX env g n c).next cs'
      (by show g.curId < _; have := h1.1; omega)
    exact flInv_seq h1 h2
termination_by env g n cs hg => 3 * sizeOf cs

theorem flED : (env : ScanEnv) → (g : WalkCtx) → (n : Nat) → (cs : PForest) → g.curId < n →
    flInv g.curId n (writeElidedDefX env g n cs).flushed (writeElidedDefX env g n cs).next
  | env, g, n, .nil, _ => flInv_nil _ n
  | env, g, n, .cons c cs', hg => by
    have h1 := flCont env g n c hg
    simp only [writeElidedDefX]
    split
    · exact flInv_seq h1 (flInv_nil _ _)
    · have h2 := flED env g (writeContentX env g n c).next cs' (by have := h1.1; omega)
      exact flInv_seq h1 h2
termination_by env g n cs hg => 3 * sizeOf cs + 1

theorem flEDec : (env : ScanEnv) → (g : WalkCtx) → (n : Nat) → (cs : PForest) → g.curId < n →
    flInv g.curId n (writeElidedDecX env g n cs).flushed (writeElidedDecX env g n cs).next
  | env, g, n, .nil, _ => flInv_nil _ n
  | env, g, n, .cons (.leaf l) cs', hg => by
    have h1 := flCont env g n (.leaf l) hg
    have h2 := flEDec env g (writeContentX env g n (.leaf l)).next cs' (by have := h1.1; omega)
    exact flInv_seq h1 h2
  | env, g, n, .cons (.node .classOrFunc nm cs2) cs', hg => by
    show flInv g.curId n (writeElidedDefX env g n cs2).flushed (writeElidedDefX env g n cs2).next
    exact flED env g n cs2 hg
  | env, g, n, .cons (.node .plain nm cs2) cs', hg => by
    have h1 := flCont env g n (.node .plain nm cs2) hg
    have h2 := flEDec env g (writeContentX env g n (.node .plain nm cs2)).next cs'
      (by have := h1.1; omega)
    exact flInv_seq h1 h2
  | env, g, n, .cons (.node .decorated nm cs2) cs', hg => by
    have h1 := flCont env g n (.node .decorated nm cs2) hg
    have h2 := flEDec env g (writeContentX env g n (.node .decorated nm cs2)).next cs'
      (by have := h1.1; omega)
    exact flInv_seq h1 h2
termination_by env g n cs hg => 3 * sizeOf cs + 2
end

theorem split_cases {F A B : List FRec} {f r : FRec} (h : F ++ [r] = A ++ f :: B) :
    (∃ B0, F = A ++ f :: B0 ∧ B = B0 ++ [r]) ∨ (A = F ∧ f = r ∧ B = []) := by
  rcases List.append_eq_append_iff.mp h with ⟨a', ha1, ha2⟩ | ⟨c', hc1, hc2⟩
  · cases a' with
    | nil =>
      simp only [List.append_nil] at ha1
      simp only [List.nil_append] at ha2
      injection ha2 with h1 h2
      exact Or.inr ⟨ha1, h1.symm, h2.symm⟩
    | cons x xs =>
      simp only [List.cons_append] at ha2
      injection ha2 with h1 h2
      exact absurd h2.symm (by simp)
  · cases c' with
    | nil =>
      simp only [List.append_nil] at hc1
      simp only [List.nil_append] at hc2
      injection hc2 with h1 h2
      exact Or.inr ⟨hc1.symm, h1, h2⟩
    | cons y ys =>
      simp only [List.cons_append] at hc2
      injection hc2 with h1 h2
      subst h1
      exact Or.inl ⟨ys, by rw [hc1], h2⟩

theorem nodup_split_unique : ∀ (A : List FRec) {A' B B' : List FRec} {f gg : FRec},
    ((A ++ f :: B).map FRec.id).Nodup → A ++ f :: B = A' ++ gg :: B' → f.id = gg.id →
    A = A' ∧ f = gg := by
  intro A
  induction A with
  | nil =>
    intro A' B B' f gg hd he hid
    cases A' with
    | nil =>
      simp only [List.nil_append] at he
      injection he with h1 h2
      exact ⟨rfl, h1⟩
    | cons a' A'' =>
      simp only [List.nil_append, List.cons_append] at he
      injection he with h1 h2
      have hgg : gg ∈ B := by rw [h2]; simp
      rw [List.nil_append, List.map_cons, List.nodup_cons] at hd
      exact absurd (List.mem_map.mpr ⟨gg, hgg, hid.symm⟩) hd.1
  | cons a A0 ih =>
    intro A' B B' f gg hd he hid
    cases A' with
    | nil =>
      simp only [List.cons_append, List.nil_append] at he
      injection he with h1 h2
      rw [List.cons_append, List.map_cons, List.nodup_cons] at hd
      have hfmem : f.id ∈ (A0 ++ f :: B).map FRec.id := by simp
      have ha : a.id = f.id := by rw [h1, ← hid]
      rw [← ha] at hfmem
      exact absurd hfmem hd.1
    | cons a' A0' =>
      simp only [List.cons_append] at he
      injection he with h1 h2
      subst h1
      rw [List.cons_append, List.map_cons, List.nodup_cons] at hd
      obtain ⟨hA, hf⟩ := ih hd.2 h2 hid
      exact ⟨by rw [hA], hf⟩

theorem flFile (env : ScanEnv) :
    ∀ (children : List PTree) (n : Nat), 0 < n →
      flInv 0 n (fileFoldX env n children).flushed (fileFoldX env n children).next := by
  intro children
  induction children with
  | nil => intro n _; exact flInv_nil 0 n
  | cons c cs ih =>
    intro n h
    have h1 := flTree env ⟨0, false, none, 0⟩ n c h
    have h2 := ih (writeTreeX env ⟨0, false, none, 0⟩ n c).next (by have := h1.1; omega)
    exact flInv_seq h1 h2

/-- C9: node records are written children-before-parent.  For any file, the
`write_node` sequence ends with the `SourceFile` root record, and whenever a
record `c` names a record `f` as its parent (the node that received `c`'s
elision placeholder), `c` appears strictly before `f` in the sequence. -/
theorem c9_theorem :
    ∀ (env : ScanEnv) (children : List PTree),
      (∃ A0, runFileNodes env children
          = A0 ++ [⟨0, none, fileMeta env, (runFile env children).toks⟩])
      ∧ (∀ (A B : List FRec) (f c : FRec),
          runFileNodes env children = A ++ f :: B →
          c ∈ runFileNodes env children → c.parent = some f.id → c ∈ A) := by
  intro env children
  constructor
  · exact ⟨(runFile env children).flushed, rfl⟩
  · intro A B f c hsplit hc hpar
    have hinv : flInv 0 1 (runFile env children).flushed (runFile env children).next :=
      flFile env children 1 (by omega)
    obtain ⟨hn, hr, hd, hp⟩ := hinv
    have hcF : c ∈ (runFile env children).flushed := by
      rcases List.mem_append.mp hc with h | h
      · exact h
      · rw [List.mem_singleton] at h
        rw [h] at hpar
        exact absurd hpar (by simp)
    have hsplit' : (runFile env children).flushed
        ++ [⟨0, none, fileMeta env, (runFile env children).toks⟩] = A ++ f :: B := hsplit
    rcases hp c hcF with hpc | ⟨A', gg, B', heq, hid, hcA'⟩
    · have hf0 : f.id = 0 := by
        have h2 := hpc.symm.trans hpar
        exact (Option.some_inj.mp h2).symm
      rcases split_cases hsplit' with ⟨B0, hF, hB⟩ | ⟨hA, hfr, hB⟩
      · have : f ∈ (runFile env children).flushed := by rw [hF]; simp
        have := (hr f this).1
        omega
      · rw [hA]
        exact hcF
    · have hgf : gg.id = f.id := Option.some_inj.mp (hid.trans hpar)
      have hggF : gg ∈ (runFile env children).flushed := by rw [heq]; simp
      have hgg1 : 1 ≤ gg.id := (hr gg hggF).1
      rcases split_cases hsplit' with ⟨B0, hF, hB⟩ | ⟨hA, hfr, hB⟩
      · have hd' : (((A ++ f :: B0).map FRec.id)).Nodup := by rw [← hF]; exact hd
        have heq' : A ++ f :: B0 = A' ++ gg :: B' := by rw [← hF, heq]
        obtain ⟨hAA, _⟩ := nodup_split_unique A hd' heq' hgf.symm
        rw [hAA]
        exact hcA'
      · rw [hfr] at hgf
        simp only [] at hgf
        omega

instance : Inhabited FRec := ⟨⟨0, none, ⟨"", 0, 0, 0, 0⟩, []⟩⟩

/-- Witness for `c9_theorem`: in the one-function module the Definition node
(identity 1, parent 0) appears before the root record (identity 0, last). -/
theorem c9_witness :
    (runFile envC [fooT]).flushed.getD 0 default ∈ (runFile envC [fooT]).flushed :=
  (c9_theorem envC [fooT]).2 (runFile envC [fooT]).flushed []
    ⟨0, none, fileMeta envC, (runFile envC [fooT]).toks⟩
    ((runFile envC [fooT]).flushed.getD 0 default)
    rfl (by decide) (by decide)
